import Mathlib

/-!
Verification of the msanii demo utilities (`src/msanii/demo/utils.py`).

The Python functions are shallowly embedded over exact arithmetic:

* machine integers become `Nat`/`Int`; Python's `int(a / b)` on non-negative
  integers becomes `Nat` floor division and `math.ceil(a / b)` becomes
  `(a + b - 1) / b`;
* the time axis of a tensor becomes a `List ℚ`; `torch.nn.functional.pad`
  on the last axis (which pads with zeros for a positive amount and crops
  for a negative amount) becomes `padCrop`;
* a 3-D `(batch, channel, time)` tensor becomes `List (List (List ℚ))`;
* IEEE-754 special values, where a claim is about them, are tracked
  explicitly by the carrier `Fp` (exact rationals plus `±∞` and NaN).
-/

namespace Msanii

/-- Ceiling division on naturals: `divUp n d = ⌈n / d⌉` for `d > 0`,
embedding Python's `math.ceil(n / d)` on non-negative integers. -/
def divUp (n d : ℕ) : ℕ := (n + d - 1) / d

/-- Embeds `compute_divisible_length` (utils.py lines 16-27):
`num_time_frames = int(curr_length / hop_length) + 1`,
`divisible_time_frames = ceil(num_time_frames / 2**num_downsamples) * 2**num_downsamples`,
result `(divisible_time_frames - 1) * hop_length`. -/
def compute_divisible_length (curr_length hop_length num_downsamples : ℕ) : ℕ :=
  let num_time_frames := curr_length / hop_length + 1
  let divisible_time_frames := divUp num_time_frames (2 ^ num_downsamples) * 2 ^ num_downsamples
  (divisible_time_frames - 1) * hop_length

/-- Embeds `torch.nn.functional.pad` on the last (time) axis of a tensor,
acting on one time row: a non-negative amount adds that many zeros at the
corresponding edge, a negative amount removes that many samples there. -/
def padCrop (x : List ℚ) (left right : ℤ) : List ℚ :=
  let y := if 0 ≤ left then List.replicate left.toNat 0 ++ x else x.drop (-left).toNat
  if 0 ≤ right then y ++ List.replicate right.toNat 0 else y.take (y.length - (-right).toNat)

/-- Embeds `pad_to_divisible_length` (utils.py lines 30-42) on one time row
(`F.pad` with a two-element pad only touches the last axis, so every other
axis is untouched and each time row is transformed identically). -/
def pad_to_divisible_length (x : List ℚ) (hop_length num_downsamples : ℕ)
    (pad_end : Bool) : List ℚ :=
  let divisible_length := compute_divisible_length x.length hop_length num_downsamples
  if pad_end then padCrop x 0 ((divisible_length : ℤ) - x.length)
  else padCrop x ((divisible_length : ℤ) - x.length) 0

/-- Length of the last (time) axis of a 3-D `(batch, channel, time)` tensor,
read off the first row as `torch` reads `x.shape[-1]` of a rectangular tensor. -/
def tensor3_length (x : List (List (List ℚ))) : ℕ := ((x.headD []).headD []).length

/-- Embeds `F.pad` on the last axis of a 3-D tensor: every time row is padded or
cropped by the same amounts. -/
def pad_last_dim3 (x : List (List (List ℚ))) (left right : ℤ) : List (List (List ℚ)) :=
  x.map (fun ch => ch.map (fun row => padCrop row left right))

/-- Embeds `pad_to_divisible_length` applied to a whole 3-D tensor: the target
length is computed once from `x.shape[-1]` and applied to the last axis. -/
def pad_to_divisible_length3 (x : List (List (List ℚ))) (hop_length num_downsamples : ℕ)
    (pad_end : Bool) : List (List (List ℚ)) :=
  let divisible_length := compute_divisible_length (tensor3_length x) hop_length num_downsamples
  if pad_end then pad_last_dim3 x 0 ((divisible_length : ℤ) - tensor3_length x)
  else pad_last_dim3 x ((divisible_length : ℤ) - tensor3_length x) 0

/-- Embeds `gradio_audio_preprocessing` (utils.py lines 45-83) on a 1-D
floating input with `src_sample_rate = target_sample_rate` — the identity
path of the claims: the integer-dtype rescale branch is skipped, the 1-D
input is reshaped by `rearrange(audio, "l -> () () l")` to `[[audio]]`, and
`torchaudio.functional.resample` returns its input unchanged when source and
target rates coincide (it short-circuits on `orig_freq == new_freq`). The
target length is rescaled by `int((target_length * rate) / rate)`, the
tensor is padded to it, then padded to a divisible length; the final
dtype/device cast does not change values. -/
def gradio_audio_preprocessing_eqrate (audio : List ℚ)
    (sample_rate target_length hop_length num_downsamples : ℕ)
    (pad_end : Bool) : List (List (List ℚ)) :=
  let a : List (List (List ℚ)) := [[audio]]
  let tl := target_length * sample_rate / sample_rate
  let b := if pad_end then pad_last_dim3 a 0 ((tl : ℤ) - tensor3_length a)
    else pad_last_dim3 a ((tl : ℤ) - tensor3_length a) 0
  pad_to_divisible_length3 b hop_length num_downsamples pad_end

/-- Embeds `rearrange(audio, "b c l -> (l b) c")`: the composite output axis
`(l b)` iterates with `l` outermost, so flat row `t * B + b` holds, for each
channel `c`, the sample `audio[b][c][t]`. -/
def rearrange_bcl_to_lbc (x : List (List (List ℚ))) : List (List ℚ) :=
  (List.range (tensor3_length x)).flatMap
    (fun t => x.map (fun ch => ch.map (fun row => row.getD t 0)))

/-- Embeds `gradio_audio_postprocessing` (utils.py lines 86-98): pad (or
crop, for a negative delta) the time axis to `target_length`, then
`rearrange(audio, "b c l -> (l b) c")`; detach/cpu/numpy do not change values. -/
def gradio_audio_postprocessing (audio : List (List (List ℚ))) (target_length : ℕ)
    (pad_end : Bool) : List (List ℚ) :=
  let padded := if pad_end then pad_last_dim3 audio 0 ((target_length : ℤ) - tensor3_length audio)
    else pad_last_dim3 audio ((target_length : ℤ) - tensor3_length audio) 0
  rearrange_bcl_to_lbc padded

/-- Embeds the integer-dtype rescale of `gradio_audio_preprocessing`
(utils.py line 57): `audio / np.iinfo(audio.dtype).max`, dividing a raw
sample `v` by the dtype's maximum `maxMagnitude` (for a signed width-`w`
dtype, `maxMagnitude = 2 ^ (w - 1) - 1` while samples may be as small as
`-2 ^ (w - 1)`). -/
def int_rescale (maxMagnitude : ℕ) (v : ℤ) : ℚ := (v : ℚ) / (maxMagnitude : ℚ)

/-- Embeds `np.ones_like(audio)` for a `(time, other-axes)` array. -/
def ones_like (audio : List (List ℚ)) : List (List ℚ) :=
  audio.map (fun row => row.map (fun _ => (1 : ℚ)))

/-- Embeds the slice assignment `mask[start_sample:end_sample, ...] = 0`:
walking the rows with a running index `i`, every row whose index lies in
`[s, e)` is zeroed across all other axes; indices beyond the buffer simply
never occur (silent clipping, as with Python slices). -/
def set_rows_zero : List (List ℚ) → ℕ → ℕ → ℕ → List (List ℚ)
  | [], _, _, _ => []
  | row :: rest, i, s, e =>
    (if s ≤ i ∧ i < e then row.map (fun _ => (0 : ℚ)) else row) :: set_rows_zero rest (i + 1) s e

/-- Embeds `generate_gradio_audio_mask` (utils.py lines 101-119) after
parsing: the spec string `"a-b,c-d"` becomes the interval list
`[(a, b), (c, d)]`, the mask starts as `np.ones_like(audio)`, and each
interval zeroes rows `[start * sample_rate, end * sample_rate)`. -/
def generate_gradio_audio_mask (audio : List (List ℚ)) (sample_rate : ℕ)
    (intervals : List (ℕ × ℕ)) : List (List ℚ) :=
  intervals.foldl (fun m p => set_rows_zero m 0 (p.1 * sample_rate) (p.2 * sample_rate))
    (ones_like audio)

/-- Global maximum absolute value of a buffer, `x.abs().max()`, over exact
rationals (for a non-empty buffer the initial `0` never exceeds an absolute
value, so this agrees with the torch reduction). -/
def maxAbs (x : List ℚ) : ℚ := x.foldl (fun a v => max a |v|) 0

/-- Embeds `max_abs_scaling` (utils.py lines 122-126) in exact arithmetic:
`x / x.abs().max() * max_abs_value` elementwise. -/
def max_abs_scaling (x : List ℚ) (max_abs_value : ℚ) : List ℚ :=
  x.map (fun v => v / maxAbs x * max_abs_value)

/-- IEEE-754 value carrier for the claims about division artifacts: exact
rationals plus the special values `+∞`, `-∞` and NaN (rounding of finite
results is not modelled; the special-value propagation is). -/
inductive Fp where
  | fin : ℚ → Fp
  | posInf : Fp
  | negInf : Fp
  | nan : Fp
deriving DecidableEq

/-- Absolute value on `Fp`. -/
def Fp.abs : Fp → Fp
  | .fin q => .fin |q|
  | .posInf => .posInf
  | .negInf => .posInf
  | .nan => .nan

/-- Binary maximum on `Fp` as the torch `max` reduction combines values:
NaN propagates, otherwise the larger value wins. -/
def Fp.maxv : Fp → Fp → Fp
  | .nan, _ => .nan
  | _, .nan => .nan
  | .posInf, _ => .posInf
  | _, .posInf => .posInf
  | .negInf, b => b
  | a, .negInf => a
  | .fin a, .fin b => .fin (max a b)

/-- IEEE-754 division on `Fp`: `0 / 0` is NaN, a non-zero finite value over
zero is a signed infinity, NaN propagates. -/
def Fp.div : Fp → Fp → Fp
  | .nan, _ => .nan
  | _, .nan => .nan
  | .fin x, .fin y =>
    if y = 0 then (if x = 0 then .nan else if 0 < x then .posInf else .negInf)
    else .fin (x / y)
  | .fin _, .posInf => .fin 0
  | .fin _, .negInf => .fin 0
  | .posInf, .fin y => if 0 ≤ y then .posInf else .negInf
  | .negInf, .fin y => if 0 ≤ y then .negInf else .posInf
  | .posInf, .posInf => .nan
  | .posInf, .negInf => .nan
  | .negInf, .posInf => .nan
  | .negInf, .negInf => .nan

/-- IEEE-754 multiplication on `Fp`: NaN propagates, `0 * ∞` is NaN. -/
def Fp.mul : Fp → Fp → Fp
  | .nan, _ => .nan
  | _, .nan => .nan
  | .fin x, .fin y => .fin (x * y)
  | .fin x, .posInf => if x = 0 then .nan else if 0 < x then .posInf else .negInf
  | .fin x, .negInf => if x = 0 then .nan else if 0 < x then .negInf else .posInf
  | .posInf, .fin y => if y = 0 then .nan else if 0 < y then .posInf else .negInf
  | .negInf, .fin y => if y = 0 then .nan else if 0 < y then .negInf else .posInf
  | .posInf, .posInf => .posInf
  | .posInf, .negInf => .negInf
  | .negInf, .posInf => .negInf
  | .negInf, .negInf => .posInf

/-- Embeds `max_abs_scaling` (utils.py lines 122-126) over the IEEE-754
carrier `Fp`, tracking the special values the torch computation produces:
`x / x.abs().max() * max_abs_value` elementwise. -/
def max_abs_scaling_fp (x : List Fp) (max_abs_value : Fp) : List Fp :=
  let m := (x.map Fp.abs).foldl Fp.maxv Fp.negInf
  x.map (fun v => (v.div m).mul max_abs_value)

end Msanii

namespace Msanii

theorem padCrop_zero (x : List ℚ) : padCrop x 0 0 = x := by
  simp [padCrop]

theorem padCrop_right_nonneg (x : List ℚ) (k : ℕ) :
    padCrop x 0 (k : ℤ) = x ++ List.replicate k 0 := by
  simp [padCrop]

theorem padCrop_left_nonneg (x : List ℚ) (k : ℕ) :
    padCrop x (k : ℤ) 0 = List.replicate k 0 ++ x := by
  simp [padCrop]

theorem padCrop_right_neg (x : List ℚ) (k : ℕ) :
    padCrop x 0 (-(k : ℤ)) = x.take (x.length - k) := by
  rcases Nat.eq_zero_or_pos k with hk | hk
  · subst hk; simp [padCrop]
  · have hneg : ¬ (0 ≤ -(k : ℤ)) := by omega
    simp [padCrop, hneg]

theorem padCrop_left_neg (x : List ℚ) (k : ℕ) :
    padCrop x (-(k : ℤ)) 0 = x.drop k := by
  rcases Nat.eq_zero_or_pos k with hk | hk
  · subst hk; simp [padCrop]
  · have hneg : ¬ (0 ≤ -(k : ℤ)) := by omega
    simp [padCrop, hneg]

theorem le_divUp_mul (n d : ℕ) (hd : 0 < d) : n ≤ divUp n d * d := by
  unfold divUp
  rw [mul_comm]
  have h1 := Nat.div_add_mod (n + d - 1) d
  have h2 := Nat.mod_lt (n + d - 1) hd
  generalize d * ((n + d - 1) / d) = m at h1 ⊢
  omega

/-- C1 counterexample: at `length = 1000`, `hop_length = 256`,
`num_downsamples = 2` (the spec's own concrete scenario) the result is 768,
which is strictly smaller than the input length, so the claimed bound
`result ≥ length` fails. -/
theorem compute_divisible_length_ge_counterexample :
    compute_divisible_length 1000 256 2 = 768 ∧
    ¬ (1000 ≤ compute_divisible_length 1000 256 2) := by
  decide

/-- C1 (amended): for `hop_length > 0` the result of
`compute_divisible_length` is at least `hop_length * (length / hop_length)`
(the largest multiple of `hop_length` not exceeding `length`; in particular
it is `≥ length` whenever `hop_length` divides `length`), and
`result / hop_length + 1` is divisible by `2 ^ num_downsamples`. -/
theorem compute_divisible_length_lower_bound (L h nd : ℕ) (hh : 0 < h) :
    h * (L / h) ≤ compute_divisible_length L h nd ∧
    2 ^ nd ∣ (compute_divisible_length L h nd / h + 1) ∧
    (h ∣ L → L ≤ compute_divisible_length L h nd) := by
  have hd : 0 < 2 ^ nd := pow_pos (by norm_num) nd
  have hFn : L / h + 1 ≤ divUp (L / h + 1) (2 ^ nd) * 2 ^ nd :=
    le_divUp_mul _ _ hd
  have hdvdF : 2 ^ nd ∣ divUp (L / h + 1) (2 ^ nd) * 2 ^ nd :=
    dvd_mul_left _ _
  have hcdl : compute_divisible_length L h nd
      = (divUp (L / h + 1) (2 ^ nd) * 2 ^ nd - 1) * h := rfl
  rw [hcdl]
  generalize divUp (L / h + 1) (2 ^ nd) * 2 ^ nd = F at hFn hdvdF ⊢
  refine ⟨?_, ?_, ?_⟩
  · have h1 : L / h ≤ F - 1 := Nat.le_pred_of_lt hFn
    exact le_trans (le_of_eq (mul_comm h (L / h))) (Nat.mul_le_mul_right h h1)
  · rw [Nat.mul_div_cancel _ hh]
    have hFpos : 1 ≤ F := le_trans (Nat.le_add_left 1 (L / h)) hFn
    rw [Nat.sub_add_cancel hFpos]
    exact hdvdF
  · intro hLh
    have h1 : L / h * h = L := Nat.div_mul_cancel hLh
    have h2 : L / h ≤ F - 1 := Nat.le_pred_of_lt hFn
    calc L = L / h * h := h1.symm
      _ ≤ (F - 1) * h := Nat.mul_le_mul_right h h2

/-- C1 witness: the amended bound instantiated at `1000, 256, 2`. -/
theorem compute_divisible_length_lower_bound_witness :
    0 < 256 ∧
    (256 * (1000 / 256) ≤ compute_divisible_length 1000 256 2 ∧
      2 ^ 2 ∣ (compute_divisible_length 1000 256 2 / 256 + 1) ∧
      (256 ∣ 1000 → 1000 ≤ compute_divisible_length 1000 256 2)) :=
  ⟨by decide, compute_divisible_length_lower_bound 1000 256 2 (by decide)⟩

/-- C3: at the failing input `x = [1, 2, 3]`, `hop_length = 2`,
`num_downsamples = 0`, `pad_end = true`, the divisible length is 2, strictly
below the current length 3, and `pad_to_divisible_length` neither fails nor
returns the buffer unchanged: `F.pad` with the negative amount silently
crops the buffer to `[1, 2]`. -/
theorem pad_negative_amount_crops :
    compute_divisible_length 3 2 0 < 3 ∧
    pad_to_divisible_length [1, 2, 3] 2 0 true = [1, 2] ∧
    pad_to_divisible_length ([1, 2, 3] : List ℚ) 2 0 true ≠ [1, 2, 3] := by
  decide

/-- C9: on a buffer whose time-axis length already equals the divisible
length computed from it, `pad_to_divisible_length` is the identity (the pad
amount is 0), for either value of `pad_end`. -/
theorem pad_to_divisible_length_aligned_id (x : List ℚ) (h nd : ℕ) (pe : Bool)
    (hal : x.length = compute_divisible_length x.length h nd) :
    pad_to_divisible_length x h nd pe = x := by
  have hδ : ((compute_divisible_length x.length h nd : ℤ) - x.length) = 0 := by
    rw [← hal, sub_self]
  simp only [pad_to_divisible_length, hδ]
  cases pe <;> simp [padCrop_zero]

/-- C9 witness: the buffer `[1, 2]` with `hop_length = 2`,
`num_downsamples = 0` is already aligned and is returned unchanged. -/
theorem pad_to_divisible_length_aligned_id_witness :
    ([1, 2] : List ℚ).length
        = compute_divisible_length ([1, 2] : List ℚ).length 2 0 ∧
    pad_to_divisible_length ([1, 2] : List ℚ) 2 0 true = [1, 2] :=
  ⟨by decide, pad_to_divisible_length_aligned_id [1, 2] 2 0 true (by decide)⟩

/-- C4: for every buffer, `pad_to_divisible_length` returns a buffer whose
time-axis length is exactly `compute_divisible_length x.length hop nd`; when
that target is smaller than the input, samples are cropped at the selected
edge (trailing for `pad_end = true`, leading otherwise), and when it is
larger, zeros are added at the selected edge with the original samples
preserved. -/
theorem pad_to_divisible_length_spec (x : List ℚ) (hop nd : ℕ) (pe : Bool)
    (hh : 0 < hop) :
    (pad_to_divisible_length x hop nd pe).length
      = compute_divisible_length x.length hop nd ∧
    (compute_divisible_length x.length hop nd ≤ x.length →
      pad_to_divisible_length x hop nd pe
        = if pe then x.take (compute_divisible_length x.length hop nd)
          else x.drop (x.length - compute_divisible_length x.length hop nd)) ∧
    (x.length ≤ compute_divisible_length x.length hop nd →
      pad_to_divisible_length x hop nd pe
        = if pe then
            x ++ List.replicate (compute_divisible_length x.length hop nd - x.length) 0
          else
            List.replicate (compute_divisible_length x.length hop nd - x.length) 0 ++ x) := by
  have hpad : pad_to_divisible_length x hop nd pe =
      if pe then padCrop x 0 ((compute_divisible_length x.length hop nd : ℤ) - x.length)
      else padCrop x ((compute_divisible_length x.length hop nd : ℤ) - x.length) 0 := rfl
  rw [hpad]
  generalize compute_divisible_length x.length hop nd = D
  rcases le_total x.length D with hle | hle
  · have hc : (D : ℤ) - (x.length : ℤ) = ((D - x.length : ℕ) : ℤ) := by omega
    rw [hc]
    refine ⟨?_, ?_, ?_⟩
    · cases pe <;>
        simp [padCrop_left_nonneg, padCrop_right_nonneg] <;> omega
    · intro hge
      have hx : x.length = D := le_antisymm hle hge
      cases pe <;>
        simp [padCrop_left_nonneg, padCrop_right_nonneg, hx, padCrop_zero,
          List.take_of_length_le]
    · intro _
      cases pe <;> simp [padCrop_left_nonneg, padCrop_right_nonneg]
  · have hc : (D : ℤ) - (x.length : ℤ) = -(((x.length - D : ℕ)) : ℤ) := by omega
    rw [hc]
    refine ⟨?_, ?_, ?_⟩
    · cases pe <;>
        simp [padCrop_left_neg, padCrop_right_neg] <;> omega
    · intro _
      have hk : x.length - (x.length - D) = D := by omega
      cases pe <;> simp [padCrop_left_neg, padCrop_right_neg, hk]
    · intro hge
      have hx : x.length = D := le_antisymm hge hle
      have hz : x.length - D = 0 := by omega
      cases pe <;>
        simp [padCrop_left_neg, padCrop_right_neg, hz, hx, padCrop_zero,
          List.take_of_length_le]

/-- C4 witness: the characterization instantiated at `x = [1, 2, 3]`,
`hop_length = 2`, `num_downsamples = 0`, `pad_end = true` (a crop to
length 2). -/
theorem pad_to_divisible_length_spec_witness :
    0 < 2 ∧
    ((pad_to_divisible_length ([1, 2, 3] : List ℚ) 2 0 true).length
        = compute_divisible_length ([1, 2, 3] : List ℚ).length 2 0 ∧
      (compute_divisible_length ([1, 2, 3] : List ℚ).length 2 0
            ≤ ([1, 2, 3] : List ℚ).length →
        pad_to_divisible_length ([1, 2, 3] : List ℚ) 2 0 true
          = if true then
              ([1, 2, 3] : List ℚ).take
                (compute_divisible_length ([1, 2, 3] : List ℚ).length 2 0)
            else
              ([1, 2, 3] : List ℚ).drop
                (([1, 2, 3] : List ℚ).length
                  - compute_divisible_length ([1, 2, 3] : List ℚ).length 2 0)) ∧
      (([1, 2, 3] : List ℚ).length
            ≤ compute_divisible_length ([1, 2, 3] : List ℚ).length 2 0 →
        pad_to_divisible_length ([1, 2, 3] : List ℚ) 2 0 true
          = if true then
              ([1, 2, 3] : List ℚ) ++
                List.replicate
                  (compute_divisible_length ([1, 2, 3] : List ℚ).length 2 0
                    - ([1, 2, 3] : List ℚ).length) 0
            else
              List.replicate
                (compute_divisible_length ([1, 2, 3] : List ℚ).length 2 0
                  - ([1, 2, 3] : List ℚ).length) 0 ++ ([1, 2, 3] : List ℚ))) :=
  ⟨by decide, pad_to_divisible_length_spec [1, 2, 3] 2 0 true (by decide)⟩

theorem le_foldl_maxAbs (x : List ℚ) : ∀ a : ℚ, a ≤ x.foldl (fun a v => max a |v|) a := by
  induction x with
  | nil => intro a; exact le_refl a
  | cons v xs ih =>
    intro a
    exact le_trans (le_max_left a |v|) (ih (max a |v|))

theorem abs_mem_le_foldl_maxAbs (x : List ℚ) :
    ∀ (a v : ℚ), v ∈ x → |v| ≤ x.foldl (fun a v => max a |v|) a := by
  induction x with
  | nil => intro a v hv; cases hv
  | cons w xs ih =>
    intro a v hv
    rcases List.mem_cons.mp hv with hv | hv
    · subst hv
      exact le_trans (le_max_right a |v|) (le_foldl_maxAbs xs (max a |v|))
    · exact ih (max a |w|) v hv

theorem abs_le_maxAbs (v : ℚ) (x : List ℚ) (hv : v ∈ x) : |v| ≤ maxAbs x :=
  abs_mem_le_foldl_maxAbs x 0 v hv

theorem foldl_maxAbs_mul (c : ℚ) (hc : 0 ≤ c) : ∀ (x : List ℚ) (a : ℚ),
    (x.map (fun v => v * c)).foldl (fun a v => max a |v|) (a * c)
      = x.foldl (fun a v => max a |v|) a * c := by
  intro x
  induction x with
  | nil => intro a; rfl
  | cons v xs ih =>
    intro a
    have habs : |v * c| = |v| * c := by
      rw [abs_mul, abs_of_nonneg hc]
    have hmax : max (a * c) (|v| * c) = max a |v| * c :=
      (max_mul_of_nonneg a |v| hc).symm
    simp only [List.map_cons, List.foldl_cons, habs, hmax]
    exact ih (max a |v|)

theorem maxAbs_map_mul (x : List ℚ) (c : ℚ) (hc : 0 ≤ c) :
    maxAbs (x.map (fun v => v * c)) = maxAbs x * c := by
  have h := foldl_maxAbs_mul c hc x 0
  rw [zero_mul] at h
  simpa [maxAbs] using h

/-- C10: for every buffer with at least one non-zero sample,
`max_abs_scaling x (1/20)` has global maximum absolute value exactly `1/20`
in exact arithmetic (the embedding is a pure function of its input, matching
the torch code, which allocates fresh tensors and never mutates `x`). -/
theorem max_abs_scaling_peak (x : List ℚ) (hx : ∃ v ∈ x, v ≠ 0) :
    maxAbs (max_abs_scaling x (1 / 20)) = 1 / 20 := by
  obtain ⟨v, hv, hvne⟩ := hx
  have hM : 0 < maxAbs x := lt_of_lt_of_le (abs_pos.mpr hvne) (abs_le_maxAbs v x hv)
  have hfun : (fun v => v / maxAbs x * (1 / 20)) = fun v : ℚ => v * (1 / 20 / maxAbs x) := by
    funext w
    ring
  rw [max_abs_scaling, hfun, maxAbs_map_mul x _ (div_nonneg (by norm_num) hM.le)]
  rw [mul_comm, div_mul_cancel₀ _ (ne_of_gt hM)]

/-- C10 witness: the buffer `[2]` is rescaled to peak `1/20`. -/
theorem max_abs_scaling_peak_witness :
    (∃ v ∈ ([2] : List ℚ), v ≠ 0) ∧
    maxAbs (max_abs_scaling ([2] : List ℚ) (1 / 20)) = 1 / 20 :=
  ⟨by decide, max_abs_scaling_peak [2] (by decide)⟩

/-- C7: at the failing input, the all-zero two-sample buffer, the source
computation `x / x.abs().max() * max_abs_value` divides `0` by `0` and
returns a buffer of NaNs — it neither fails nor returns the zero buffer. -/
theorem max_abs_scaling_zero_buffer_nan :
    max_abs_scaling_fp [Fp.fin 0, Fp.fin 0] (Fp.fin (1 / 20)) = [Fp.nan, Fp.nan] ∧
    Fp.nan ≠ Fp.fin 0 := by
  decide

/-- C5 counterexample: for the `int16` dtype (`iinfo.max = 32767`) the most
negative sample `-32768` is rescaled to `-32768 / 32767`, which lies outside
`[-1, 1]`. -/
theorem int_rescale_range_counterexample :
    ¬ (-1 ≤ int_rescale 32767 (-32768) ∧ int_rescale 32767 (-32768) ≤ 1) := by
  rintro ⟨h1, -⟩
  rw [int_rescale] at h1
  norm_num at h1

/-- C5 (amended): for a dtype with maximum magnitude `M > 0`, every sample
`v` with `-M ≤ v ≤ M` is rescaled into `[-1, 1]`; only the most negative
value `-(M + 1)` of a signed dtype escapes, landing just below `-1`. -/
theorem int_rescale_range (M : ℕ) (v : ℤ) (hM : 0 < M)
    (h1 : -(M : ℤ) ≤ v) (h2 : v ≤ M) :
    -1 ≤ int_rescale M v ∧ int_rescale M v ≤ 1 := by
  have hMQ : (0 : ℚ) < M := by exact_mod_cast hM
  constructor
  · have hv : -(M : ℚ) ≤ (v : ℚ) := by exact_mod_cast h1
    rw [int_rescale, neg_le, ← neg_div]
    exact (div_le_one hMQ).mpr (by linarith)
  · rw [int_rescale]
    exact (div_le_one hMQ).mpr (by exact_mod_cast h2)

/-- C5 witness: the amended bound instantiated at `M = 32767`, `v = -32767`. -/
theorem int_rescale_range_witness :
    0 < 32767 ∧ -(32767 : ℤ) ≤ -32767 ∧ (-32767 : ℤ) ≤ 32767 ∧
    (-1 ≤ int_rescale 32767 (-32767) ∧ int_rescale 32767 (-32767) ≤ 1) :=
  ⟨by decide, by decide, by decide,
    int_rescale_range 32767 (-32767) (by decide) (by decide) (by decide)⟩

theorem length_set_rows_zero :
    ∀ (m : List (List ℚ)) (i s e : ℕ), (set_rows_zero m i s e).length = m.length := by
  intro m
  induction m with
  | nil => intro i s e; rfl
  | cons row rest ih =>
    intro i s e
    simp [set_rows_zero, ih]

theorem getD_set_rows_zero :
    ∀ (m : List (List ℚ)) (i s e t : ℕ), t < m.length →
      (set_rows_zero m i s e).getD t []
        = if s ≤ i + t ∧ i + t < e then (m.getD t []).map (fun _ => (0 : ℚ))
          else m.getD t [] := by
  intro m
  induction m with
  | nil =>
    intro i s e t ht
    cases ht
  | cons row rest ih =>
    intro i s e t ht
    cases t with
    | zero =>
      simp [set_rows_zero]
    | succ t =>
      have ht' : t < rest.length := by simpa using ht
      have harith : i + 1 + t = i + (t + 1) := by omega
      simp only [set_rows_zero, List.getD_cons_succ]
      rw [ih (i + 1) s e t ht', harith]

theorem getD_map_rows (f : List ℚ → List ℚ) (l : List (List ℚ)) (t : ℕ)
    (ht : t < l.length) : (l.map f).getD t [] = f (l.getD t []) := by
  rw [List.getD_eq_getElem l [] ht, List.getD_eq_getElem _ [] (by simpa), List.getElem_map]

theorem foldl_set_rows_zero_spec (audio : List (List ℚ)) (sr : ℕ) :
    ∀ (ps : List (ℕ × ℕ)) (m : List (List ℚ)) (Q : ℕ → Prop),
      m.length = audio.length →
      (∀ t, t < audio.length →
        (Q t → m.getD t [] = (audio.getD t []).map (fun _ => (0 : ℚ))) ∧
        (¬ Q t → m.getD t [] = (audio.getD t []).map (fun _ => (1 : ℚ)))) →
      (ps.foldl (fun m p => set_rows_zero m 0 (p.1 * sr) (p.2 * sr)) m).length
          = audio.length ∧
      (∀ t, t < audio.length →
        ((Q t ∨ ∃ p ∈ ps, p.1 * sr ≤ t ∧ t < p.2 * sr) →
          (ps.foldl (fun m p => set_rows_zero m 0 (p.1 * sr) (p.2 * sr)) m).getD t []
            = (audio.getD t []).map (fun _ => (0 : ℚ))) ∧
        (¬ (Q t ∨ ∃ p ∈ ps, p.1 * sr ≤ t ∧ t < p.2 * sr) →
          (ps.foldl (fun m p => set_rows_zero m 0 (p.1 * sr) (p.2 * sr)) m).getD t []
            = (audio.getD t []).map (fun _ => (1 : ℚ)))) := by
  intro ps
  induction ps with
  | nil =>
    intro m Q hm hQ
    refine ⟨hm, ?_⟩
    intro t ht
    have h := hQ t ht
    constructor
    · rintro (hq | ⟨p, hp, -⟩)
      · exact h.1 hq
      · cases hp
    · intro hnq
      exact h.2 (fun hq => hnq (Or.inl hq))
  | cons p ps ih =>
    intro m Q hm hQ
    have hm' : (set_rows_zero m 0 (p.1 * sr) (p.2 * sr)).length = audio.length := by
      rw [length_set_rows_zero, hm]
    have hQ' : ∀ t, t < audio.length →
        ((Q t ∨ (p.1 * sr ≤ t ∧ t < p.2 * sr)) →
          (set_rows_zero m 0 (p.1 * sr) (p.2 * sr)).getD t []
            = (audio.getD t []).map (fun _ => (0 : ℚ))) ∧
        (¬ (Q t ∨ (p.1 * sr ≤ t ∧ t < p.2 * sr)) →
          (set_rows_zero m 0 (p.1 * sr) (p.2 * sr)).getD t []
            = (audio.getD t []).map (fun _ => (1 : ℚ))) := by
      intro t ht
      have htm : t < m.length := by rw [hm]; exact ht
      have hrow := getD_set_rows_zero m 0 (p.1 * sr) (p.2 * sr) t htm
      rw [Nat.zero_add] at hrow
      by_cases hin : p.1 * sr ≤ t ∧ t < p.2 * sr
      · rw [if_pos hin] at hrow
        constructor
        · intro _
          rw [hrow]
          by_cases hq : Q t
          · rw [(hQ t ht).1 hq, List.map_map]
            rfl
          · rw [(hQ t ht).2 hq, List.map_map]
            rfl
        · intro hn
          exact absurd (Or.inr hin) hn
      · rw [if_neg hin] at hrow
        constructor
        · rintro (hq | hin')
          · rw [hrow]; exact (hQ t ht).1 hq
          · exact absurd hin' hin
        · intro hn
          rw [hrow]
          exact (hQ t ht).2 (fun hq => hn (Or.inl hq))
    have hfold := ih (set_rows_zero m 0 (p.1 * sr) (p.2 * sr))
      (fun t => Q t ∨ (p.1 * sr ≤ t ∧ t < p.2 * sr)) hm' hQ'
    refine ⟨hfold.1, ?_⟩
    intro t ht
    have h := hfold.2 t ht
    constructor
    · rintro (hq | hcov)
      · exact h.1 (Or.inl (Or.inl hq))
      · rcases hcov with ⟨q, hq', hqt⟩
        rcases List.mem_cons.mp hq' with rfl | hq''
        · exact h.1 (Or.inl (Or.inr hqt))
        · exact h.1 (Or.inr ⟨q, hq'', hqt⟩)
    · intro hn
      refine h.2 ?_
      rintro ((hq | hin) | ⟨q, hq', hqt⟩)
      · exact hn (Or.inl hq)
      · exact hn (Or.inr ⟨p, List.mem_cons_self p ps, hin⟩)
      · exact hn (Or.inr ⟨q, List.mem_cons_of_mem p hq', hqt⟩)

/-- C8: the mask has the same shape as the input (so interval indices beyond
the buffer zero nothing — there is no such row — and no failure occurs), and
for every time index `t` the row at `t` is all zeros when some listed
interval `(start, end)` satisfies `start * sample_rate ≤ t < end * sample_rate`,
and all ones otherwise. -/
theorem generate_gradio_audio_mask_spec (audio : List (List ℚ)) (sr : ℕ)
    (intervals : List (ℕ × ℕ)) (t : ℕ) (ht : t < audio.length) :
    (generate_gradio_audio_mask audio sr intervals).length = audio.length ∧
    ((∃ p ∈ intervals, p.1 * sr ≤ t ∧ t < p.2 * sr) →
      (generate_gradio_audio_mask audio sr intervals).getD t []
        = (audio.getD t []).map (fun _ => (0 : ℚ))) ∧
    (¬ (∃ p ∈ intervals, p.1 * sr ≤ t ∧ t < p.2 * sr) →
      (generate_gradio_audio_mask audio sr intervals).getD t []
        = (audio.getD t []).map (fun _ => (1 : ℚ))) := by
  have hm : (ones_like audio).length = audio.length := by
    simp [ones_like]
  have hQ : ∀ s, s < audio.length →
      (False → (ones_like audio).getD s [] = (audio.getD s []).map (fun _ => (0 : ℚ))) ∧
      (¬ False → (ones_like audio).getD s [] = (audio.getD s []).map (fun _ => (1 : ℚ))) := by
    intro s hs
    refine ⟨fun h => absurd h (by simp), fun _ => ?_⟩
    exact getD_map_rows _ audio s hs
  have h := foldl_set_rows_zero_spec audio sr intervals (ones_like audio)
    (fun _ => False) hm hQ
  refine ⟨h.1, ?_, ?_⟩
  · intro hcov
    exact (h.2 t ht).1 (Or.inr hcov)
  · intro hncov
    refine (h.2 t ht).2 ?_
    rintro (hf | hcov)
    · exact hf
    · exact hncov hcov

/-- C8 witness: a 3-row buffer at sample rate 1 with interval `(1, 2)`
zeroes exactly row 1. -/
theorem generate_gradio_audio_mask_spec_witness :
    1 < ([[5], [5], [5]] : List (List ℚ)).length ∧
    ((generate_gradio_audio_mask [[5], [5], [5]] 1 [(1, 2)]).length
        = ([[5], [5], [5]] : List (List ℚ)).length ∧
      ((∃ p ∈ [((1 : ℕ), (2 : ℕ))], p.1 * 1 ≤ 1 ∧ 1 < p.2 * 1) →
        (generate_gradio_audio_mask [[5], [5], [5]] 1 [(1, 2)]).getD 1 []
          = (([[5], [5], [5]] : List (List ℚ)).getD 1 []).map (fun _ => (0 : ℚ))) ∧
      (¬ (∃ p ∈ [((1 : ℕ), (2 : ℕ))], p.1 * 1 ≤ 1 ∧ 1 < p.2 * 1) →
        (generate_gradio_audio_mask [[5], [5], [5]] 1 [(1, 2)]).getD 1 []
          = (([[5], [5], [5]] : List (List ℚ)).getD 1 []).map (fun _ => (1 : ℚ)))) :=
  ⟨by decide, generate_gradio_audio_mask_spec [[5], [5], [5]] 1 [(1, 2)] 1 (by decide)⟩

theorem pad_last_dim3_zero (x : List (List (List ℚ))) : pad_last_dim3 x 0 0 = x := by
  simp [pad_last_dim3, padCrop_zero]

theorem getD_map_lt {α β : Type} (f : α → β) (l : List α) (t : ℕ)
    (ht : t < l.length) (d : β) (d' : α) : (l.map f).getD t d = f (l.getD t d') := by
  rw [List.getD_eq_getElem _ d (by simpa), List.getD_eq_getElem l d' ht, List.getElem_map]

theorem length_range_flatMap {α : Type} (B : ℕ) :
    ∀ (L : ℕ) (f : ℕ → List α), (∀ i, (f i).length = B) →
      ((List.range L).flatMap f).length = L * B := by
  intro L
  induction L with
  | zero => intro f hf; simp
  | succ L ih =>
    intro f hf
    rw [List.range_succ_eq_map, List.flatMap_cons, List.flatMap_map, List.length_append,
      hf 0]
    have hrec := ih (fun i => f (i + 1)) (fun i => hf (i + 1))
    simp only [Nat.succ_eq_add_one] at hrec ⊢
    rw [hrec]
    ring

theorem getD_range_flatMap {α : Type} (d : α) (B : ℕ) :
    ∀ (L : ℕ) (f : ℕ → List α), (∀ i, (f i).length = B) →
      ∀ (t b : ℕ), t < L → b < B →
        ((List.range L).flatMap f).getD (t * B + b) d = (f t).getD b d := by
  intro L
  induction L with
  | zero =>
    intro f hf t b ht hb
    exact absurd ht (Nat.not_lt_zero t)
  | succ L ih =>
    intro f hf t b ht hb
    rw [List.range_succ_eq_map, List.flatMap_cons, List.flatMap_map]
    cases t with
    | zero =>
      rw [Nat.zero_mul, Nat.zero_add]
      exact List.getD_append _ _ d b (by rw [hf 0]; exact hb)
    | succ t =>
      have harith : (t + 1) * B + b = (f 0).length + (t * B + b) := by
        rw [hf 0]
        ring
      have hge : (f 0).length ≤ (t + 1) * B + b := by
        rw [harith]
        exact Nat.le_add_right _ _
      rw [List.getD_append_right _ _ d _ hge, harith, Nat.add_sub_cancel_left]
      have hrec := ih (fun i => f (i + 1)) (fun i => hf (i + 1)) t b
        (Nat.lt_of_succ_lt_succ ht) hb
      simp only [Nat.succ_eq_add_one] at hrec ⊢
      exact hrec

theorem tensor3_length_of_shape (x : List (List (List ℚ))) (C L : ℕ)
    (hxne : x ≠ []) (hCpos : 0 < C) (hC : ∀ ch ∈ x, ch.length = C)
    (hL : ∀ ch ∈ x, ∀ row ∈ ch, row.length = L) :
    tensor3_length x = L := by
  cases x with
  | nil => exact absurd rfl hxne
  | cons ch0 rest =>
    cases ch0 with
    | nil =>
      have h := hC [] (List.mem_cons_self _ _)
      simp at h
      omega
    | cons row0 chrest =>
      have hrow := hL (row0 :: chrest) (List.mem_cons_self _ _) row0 (List.mem_cons_self _ _)
      simp [tensor3_length, hrow]

/-- C6 counterexample: for the batch-2 input `[[[1, 2]], [[3, 4]]]`
(`B = 2`, `C = 1`, `L = 2`) the claim predicts
`output[b*L + t][c] = input[b][c][t]`, so `output[1][0]` (with `b = 0`,
`t = 1`) should be `input[0][0][1] = 2`; the code's `(l b)` composite axis
is time-major and actually yields `3` there. -/
theorem gradio_audio_postprocessing_flatten_counterexample :
    ((gradio_audio_postprocessing [[[1, 2]], [[3, 4]]] 2 true).getD 1 []).getD 0 0 = 3 ∧
    ¬ (((gradio_audio_postprocessing [[[1, 2]], [[3, 4]]] 2 true).getD 1 []).getD 0 0
        = ((([[[1, 2]], [[3, 4]]] : List (List (List ℚ))).getD 0 []).getD 0 []).getD 1 0) := by
  decide

/-- C6 (amended): for a rectangular `(B, C, L)` model output, the egress
denormalizer produces a `(B*L, C)` array in which batch is folded into the
time axis as the fast (innermost) axis: `output[t*B + b][c] = input[b][c][t]`
(time-major, not batch-major). -/
theorem gradio_audio_postprocessing_flatten (x : List (List (List ℚ)))
    (B C L b c t : ℕ) (pe : Bool)
    (hB : x.length = B) (hC : ∀ ch ∈ x, ch.length = C)
    (hL : ∀ ch ∈ x, ∀ row ∈ ch, row.length = L)
    (hb : b < B) (hc : c < C) (ht : t < L) :
    (gradio_audio_postprocessing x L pe).length = L * B ∧
    (∀ row ∈ gradio_audio_postprocessing x L pe, row.length = C) ∧
    ((gradio_audio_postprocessing x L pe).getD (t * B + b) []).getD c 0
      = ((x.getD b []).getD c []).getD t 0 := by
  have hb' : b < x.length := by rw [hB]; exact hb
  have hxne : x ≠ [] := by
    intro h
    rw [h] at hB
    simp at hB
    omega
  have hLen : tensor3_length x = L :=
    tensor3_length_of_shape x C L hxne (lt_of_le_of_lt (Nat.zero_le c) hc) hC hL
  have hδ : ((L : ℤ) - tensor3_length x) = 0 := by
    rw [hLen]
    ring
  have hpadded : gradio_audio_postprocessing x L pe = rearrange_bcl_to_lbc x := by
    simp only [gradio_audio_postprocessing, hδ]
    cases pe <;> rw [pad_last_dim3_zero] <;> rfl
  have hrear : rearrange_bcl_to_lbc x
      = (List.range L).flatMap
          (fun t => x.map (fun ch => ch.map (fun row => row.getD t 0))) := by
    rw [rearrange_bcl_to_lbc, hLen]
  have hf : ∀ i, (x.map (fun ch => ch.map (fun row => row.getD i 0))).length = B := by
    intro i
    rw [List.length_map, hB]
  refine ⟨?_, ?_, ?_⟩
  · rw [hpadded, hrear]
    exact length_range_flatMap B L _ hf
  · rw [hpadded, hrear]
    intro row hrow
    rcases List.mem_flatMap.mp hrow with ⟨i, hi, hrow'⟩
    rcases List.mem_map.mp hrow' with ⟨ch, hch, rfl⟩
    rw [List.length_map]
    exact hC ch hch
  · rw [hpadded, hrear, getD_range_flatMap [] B L _ hf t b ht hb]
    rw [getD_map_lt (fun ch => ch.map (fun row => row.getD t 0)) x b hb' [] []]
    have hmem : x.getD b [] ∈ x := by
      rw [List.getD_eq_getElem x [] hb']
      exact List.getElem_mem hb'
    have hchlen : (x.getD b []).length = C := hC _ hmem
    rw [getD_map_lt (fun row => row.getD t 0) (x.getD b []) c (by rw [hchlen]; exact hc) 0 []]

/-- C6 witness: the amended layout instantiated at the batch-2 input
`[[[1, 2]], [[3, 4]]]` with `b = 1`, `c = 0`, `t = 1`. -/
theorem gradio_audio_postprocessing_flatten_witness :
    (([[[1, 2]], [[3, 4]]] : List (List (List ℚ))).length = 2 ∧
      (∀ ch ∈ ([[[1, 2]], [[3, 4]]] : List (List (List ℚ))), ch.length = 1) ∧
      (∀ ch ∈ ([[[1, 2]], [[3, 4]]] : List (List (List ℚ))), ∀ row ∈ ch, row.length = 2) ∧
      1 < 2 ∧ 0 < 1 ∧ 1 < 2) ∧
    ((gradio_audio_postprocessing [[[1, 2]], [[3, 4]]] 2 true).length = 2 * 2 ∧
      (∀ row ∈ gradio_audio_postprocessing [[[1, 2]], [[3, 4]]] 2 true, row.length = 1) ∧
      ((gradio_audio_postprocessing [[[1, 2]], [[3, 4]]] 2 true).getD (1 * 2 + 1) []).getD 0 0
        = ((([[[1, 2]], [[3, 4]]] : List (List (List ℚ))).getD 1 []).getD 0 []).getD 1 0) :=
  ⟨⟨by decide, by decide, by decide, by decide, by decide, by decide⟩,
    gradio_audio_postprocessing_flatten [[[1, 2]], [[3, 4]]] 2 1 2 1 0 1 true
      (by decide) (by decide) (by decide) (by decide) (by decide) (by decide)⟩

theorem flatMap_singleton_map {α β : Type} (l : List α) (g : α → β) :
    l.flatMap (fun t => [g t]) = l.map g := by
  induction l with
  | nil => rfl
  | cons a l ih => simp [ih]

/-- C2 counterexample: the 1-sample buffer `[1]` with equal rates `1`,
`hop_length = 2` and `num_downsamples = 0` round-trips to `[[0]]`: the
divisible length `0` is below the input length, so the preprocessing crops
away the sample and the postprocessing pads a zero back in its place. -/
theorem gradio_audio_roundtrip_counterexample :
    gradio_audio_postprocessing (gradio_audio_preprocessing_eqrate [1] 1 1 2 0 true) 1 true
      = [[0]] ∧
    gradio_audio_postprocessing (gradio_audio_preprocessing_eqrate [1] 1 1 2 0 true) 1 true
      ≠ ([1] : List ℚ).map (fun v => [v]) := by
  decide

/-- C2 (amended): when additionally `hop_length` divides `len(x)` (so the
divisible length equals `len(x)` and no crop occurs), the equal-rate,
`num_downsamples = 0` round trip through preprocessing and postprocessing
returns `x` exactly, as the `(len(x), 1)` playback array. -/
theorem gradio_audio_roundtrip (x : List ℚ) (r h : ℕ) (pe : Bool)
    (hr : 0 < r) (hh : 0 < h) (hdvd : h ∣ x.length) :
    gradio_audio_postprocessing
        (gradio_audio_preprocessing_eqrate x r x.length h 0 pe) x.length pe
      = x.map (fun v => [v]) := by
  have ht3 : tensor3_length [[x]] = x.length := rfl
  have htl : x.length * r / r = x.length := Nat.mul_div_cancel _ hr
  have hcdl : compute_divisible_length x.length h 0 = x.length := by
    have h1 : compute_divisible_length x.length h 0 = x.length / h * h := by
      simp [compute_divisible_length, divUp]
    rw [h1, Nat.div_mul_cancel hdvd]
  have hpre : gradio_audio_preprocessing_eqrate x r x.length h 0 pe = [[x]] := by
    cases pe <;>
      simp [gradio_audio_preprocessing_eqrate, pad_to_divisible_length3, htl, ht3, hcdl,
        pad_last_dim3_zero, sub_self]
  rw [hpre]
  have hpost : gradio_audio_postprocessing [[x]] x.length pe
      = rearrange_bcl_to_lbc [[x]] := by
    cases pe <;>
      simp [gradio_audio_postprocessing, ht3, pad_last_dim3_zero, sub_self]
  rw [hpost]
  have hrear : rearrange_bcl_to_lbc [[x]]
      = (List.range x.length).flatMap (fun t => [[x.getD t 0]]) := by
    simp [rearrange_bcl_to_lbc, ht3]
  rw [hrear, flatMap_singleton_map]
  apply List.ext_getElem
  · simp
  · intro n h1 h2
    simp only [List.getElem_map, List.getElem_range]
    rw [List.getD_eq_getElem x 0 (by simpa using h2)]

/-- C2 witness: the buffer `[1, 2]` with rate 1 and `hop_length = 2`
(which divides the length) round-trips exactly. -/
theorem gradio_audio_roundtrip_witness :
    ((0 : ℕ) < 1 ∧ (0 : ℕ) < 2 ∧ 2 ∣ ([1, 2] : List ℚ).length) ∧
    gradio_audio_postprocessing
        (gradio_audio_preprocessing_eqrate [1, 2] 1 ([1, 2] : List ℚ).length 2 0 true)
        ([1, 2] : List ℚ).length true
      = ([1, 2] : List ℚ).map (fun v => [v]) :=
  ⟨⟨by decide, by decide, by decide⟩,
    gradio_audio_roundtrip [1, 2] 1 2 true (by decide) (by decide) (by decide)⟩

end Msanii
